import Mathlib

set_option linter.unusedSectionVars false

/-!
Shallow embedding of `ugulru` (src/ugulru.go), an in-memory LRU cache with
TTL expiration, together with proofs about its operations.

Modelling choices, all read off the Go source:

* Elements of Go's `container/list` have identity: the key map stores
  pointers to `list.Element` nodes, and a node can be removed from the list
  while the map still points at it.  We give every allocated element a
  numeric id.  `elems` is the heap: it maps each allocated id to the
  `entry` record that the element's `Value` pointer holds.  `list` is the
  sequence of ids currently linked into the ordered collection, front
  first.  `cache` is the key map, mapping keys to element ids.

* `container/list` semantics used below:
  - `l.Remove(e)` unlinks `e` only when `e.list == l`; it always leaves
    `e.Value` intact and sets `e.prev`, `e.next` and `e.list` to nil.
    On our id list this is `List.erase` (a no-op when the id is absent).
  - `l.MoveToFront(e)` is a no-op when `e.list != l`; otherwise it moves
    `e` to the front.
  - `l.Back()` is `none` on an empty list; dereferencing its `Value`
    (as `Put` and `Load` do in their eviction branch) then panics, which
    we model by returning `none` from the operation.

* `time.Now()` is passed in explicitly as `now : Int`;
  `time.Since(e.timestamp) > c.ttl` becomes `c.ttl < now - e.timestamp`.

* The loader passed to `Load` is a zero-argument computation; we pass its
  outcome as a value `loadVal` and an optional failure `loadErr`, mirroring
  Go's `(V, error)` pair.  `Load` additionally reports whether the loader
  was invoked.
-/

namespace Ugulru

/-- The `entry` struct of the Go source: key, value and last-refresh
timestamp. -/
structure EntryRec (K V : Type) where
  key : K
  value : V
  timestamp : Int
deriving Repr, DecidableEq

/-- The `InMemoryCache` struct: the key map `cache`, the ordered collection
`list` (ids, front first), the element heap `elems`, the id allocator
`nextId`, and the configuration `capacity` and `ttl`.  The mutex is not
modelled: all operations are already atomic steps here. -/
structure CacheState (K V : Type) where
  cache : List (K × Nat)
  list : List Nat
  elems : List (Nat × EntryRec K V)
  nextId : Nat
  capacity : Int
  ttl : Int
deriving Repr, DecidableEq

variable {K V E : Type} [DecidableEq K]

/-- Go map lookup `c.cache[key]`. -/
def lookupMap (m : List (K × Nat)) (k : K) : Option Nat :=
  match m.find? (fun p => decide (p.1 = k)) with
  | some p => some p.2
  | none => none

/-- Go `delete(c.cache, key)`. -/
def eraseKey (m : List (K × Nat)) (k : K) : List (K × Nat) :=
  m.filter (fun p => !decide (p.1 = k))

/-- Go map assignment `c.cache[key] = elem`. -/
def setKey (m : List (K × Nat)) (k : K) (id : Nat) : List (K × Nat) :=
  (k, id) :: eraseKey m k

/-- Dereference an element pointer: `elem.Value.(*entry[K, V])`. -/
def getEntry (es : List (Nat × EntryRec K V)) (id : Nat) : Option (EntryRec K V) :=
  match es.find? (fun p => decide (p.1 = id)) with
  | some p => some p.2
  | none => none

/-- In-place mutation `entry.value = value; entry.timestamp = now` through
the element pointer `id`. -/
def setValueTimestamp (es : List (Nat × EntryRec K V)) (id : Nat) (v : V) (ts : Int) :
    List (Nat × EntryRec K V) :=
  es.map (fun p => if p.1 = id then (p.1, { p.2 with value := v, timestamp := ts }) else p)

/-- Go `c.list.Remove(elem)`: unlink the element when it is in the list,
no-op otherwise. -/
def listRemove (l : List Nat) (id : Nat) : List Nat :=
  l.erase id

/-- Go `c.list.MoveToFront(elem)`: a no-op when the element is not in the
list. -/
def moveToFront (l : List Nat) (id : Nat) : List Nat :=
  if id ∈ l then id :: l.erase id else l

/-- Go `NewInMemoryCache(capacity, ttl)`. -/
def NewInMemoryCache (K V : Type) (capacity ttl : Int) : CacheState K V :=
  { cache := [], list := [], elems := [], nextId := 0, capacity := capacity, ttl := ttl }

/-- Go `Get`: map lookup, lazy expiration check (which removes the element
from the list but, as in the source, not from the map), move-to-front on a
live hit. -/
def Get (c : CacheState K V) (key : K) (now : Int) : Option V × CacheState K V :=
  match lookupMap c.cache key with
  | some id =>
    match getEntry c.elems id with
    | some e =>
      if c.ttl < now - e.timestamp then
        (none, { c with list := listRemove c.list id })
      else
        (some e.value, { c with list := moveToFront c.list id })
    | none => (none, c)
  | none => (none, c)

/-- The eviction guard shared by `Put` and `Load`:
`if c.list.Len() >= c.capacity { back := c.list.Back(); delete map; remove }`.
Returns `none` when `c.list.Back()` is nil and the source would dereference
a nil pointer. -/
def evictIfFull (c : CacheState K V) : Option (CacheState K V) :=
  if c.capacity ≤ (c.list.length : Int) then
    match c.list.getLast? with
    | some backId =>
      match getEntry c.elems backId with
      | some be =>
        some { c with cache := eraseKey c.cache be.key, list := listRemove c.list backId }
      | none => none
    | none => none
  else some c

/-- Allocate a fresh element holding `entry{key, value, now}`, push it to
the front and record it in the map. -/
def pushNew (c : CacheState K V) (key : K) (value : V) (now : Int) : CacheState K V :=
  { c with
    elems := (c.nextId, { key := key, value := value, timestamp := now }) :: c.elems,
    list := c.nextId :: c.list,
    cache := setKey c.cache key c.nextId,
    nextId := c.nextId + 1 }

/-- Go `Put`: overwrite-and-refresh when the key is mapped (with no
expiration check), otherwise evict-if-full then insert at the front. -/
def Put (c : CacheState K V) (key : K) (value : V) (now : Int) : Option (CacheState K V) :=
  match lookupMap c.cache key with
  | some id =>
    some { c with
      elems := setValueTimestamp c.elems id value now,
      list := moveToFront c.list id }
  | none =>
    (evictIfFull c).map (fun c1 => pushNew c1 key value now)

/-- Go `Remove`: delete from both the map and the list when present. -/
def Remove (c : CacheState K V) (key : K) : CacheState K V :=
  match lookupMap c.cache key with
  | some id => { c with cache := eraseKey c.cache key, list := listRemove c.list id }
  | none => c

/-- Go `RemoveExpired`.  The source loop is
`for elem := c.list.Back(); elem != nil; elem = elem.Prev()`, whose body
either breaks (live entry) or calls `c.list.Remove(elem)`.  `Remove` sets
`elem.prev` and `elem.list` to nil, so the post-statement `elem.Prev()`
returns nil and the loop ends after the first removal.  Hence the whole
loop inspects only the back element: it removes it when expired and stops
either way. -/
def RemoveExpired (c : CacheState K V) (now : Int) : CacheState K V :=
  match c.list.getLast? with
  | some backId =>
    match getEntry c.elems backId with
    | some e =>
      if c.ttl < now - e.timestamp then
        { c with cache := eraseKey c.cache e.key, list := listRemove c.list backId }
      else c
    | none => c
  | none => c

/-- Go `Load`: live hit returns the cached value without calling the
loader; an expired hit unlinks the element (leaving the map entry, as in
the source) and falls through; a miss invokes the loader, propagating its
failure or inserting its result.  The `Bool` in the result records whether
the loader was invoked. -/
def Load (c : CacheState K V) (key : K) (loadVal : V) (loadErr : Option E) (now : Int) :
    Option ((V × Option E) × Bool × CacheState K V) :=
  match
    (match lookupMap c.cache key with
     | some id =>
       match getEntry c.elems id with
       | some e =>
         if c.ttl < now - e.timestamp then
           Sum.inl { c with list := listRemove c.list id }
         else
           Sum.inr (e.value, { c with list := moveToFront c.list id })
       | none => Sum.inl c
     | none => Sum.inl c : Sum (CacheState K V) (V × CacheState K V))
  with
  | Sum.inr hit => some ((hit.1, none), false, hit.2)
  | Sum.inl c1 =>
    match loadErr with
    | some err => some ((loadVal, some err), true, c1)
    | none =>
      (evictIfFull c1).map (fun c2 => ((loadVal, none), true, pushNew c2 key loadVal now))

/-- Operation labels for whole runs of the cache.  Each label carries the
wall-clock instant `now` at which the call happens; `Remove` does not read
the clock but the label still records when it occurred. -/
inductive Op (K V E : Type) where
  | get (k : K) (now : Int)
  | put (k : K) (v : V) (now : Int)
  | remove (k : K) (now : Int)
  | removeExpired (now : Int)
  | load (k : K) (lv : V) (le : Option E) (now : Int)

/-- The instant at which an operation happens. -/
def opTime : Op K V E → Int
  | .get _ now => now
  | .put _ _ now => now
  | .remove _ now => now
  | .removeExpired now => now
  | .load _ _ _ now => now

/-- Run one operation, forgetting its return value.  `none` means the Go
code panicked (nil-pointer dereference in the eviction branch). -/
def applyOp (c : CacheState K V) : Op K V E → Option (CacheState K V)
  | .get k now => some (Get c k now).2
  | .put k v now => Put c k v now
  | .remove k _ => some (Remove c k)
  | .removeExpired now => some (RemoveExpired c now)
  | .load k lv le now => (Load c k lv le now).map (fun r => r.2.2)

/-- Run a sequence of operations from a state. -/
def runOps (c : CacheState K V) : List (Op K V E) → Option (CacheState K V)
  | [] => some c
  | op :: ops =>
    match applyOp c op with
    | some c1 => runOps c1 ops
    | none => none

/-- States reachable from a freshly constructed cache by finite operation
sequences. -/
inductive Reach (K V E : Type) [DecidableEq K] (capacity ttl : Int) : CacheState K V → Prop where
  | base : Reach K V E capacity ttl (NewInMemoryCache K V capacity ttl)
  | step {c c' : CacheState K V} (op : Op K V E) :
      Reach K V E capacity ttl c → applyOp c op = some c' → Reach K V E capacity ttl c'

/-- Ghost record of last-touch instants, per element id (most recent
binding first). -/
def touchVal (t : List (Nat × Int)) (id : Nat) : Int :=
  match t.find? (fun p => decide (p.1 = id)) with
  | some p => p.2
  | none => 0

/-- Record that element `id` was touched at instant `v`. -/
def touchSet (t : List (Nat × Int)) (id : Nat) (v : Int) : List (Nat × Int) :=
  (id, v) :: t

/-- Ghost bookkeeping alongside `applyOp`: a hit by `Get`, an overwrite or
insertion by `Put`, and a hit or successful insertion by `Load` touch the
corresponding element at the operation's instant. -/
def touchUpd (c : CacheState K V) (t : List (Nat × Int)) : Op K V E → List (Nat × Int)
  | .get k now =>
    match lookupMap c.cache k with
    | some id =>
      match getEntry c.elems id with
      | some e => if c.ttl < now - e.timestamp then t else touchSet t id now
      | none => t
    | none => t
  | .put k _ now =>
    match lookupMap c.cache k with
    | some id => touchSet t id now
    | none => touchSet t c.nextId now
  | .remove _ _ => t
  | .removeExpired _ => t
  | .load k _ le now =>
    match lookupMap c.cache k with
    | some id =>
      match getEntry c.elems id with
      | some e =>
        if c.ttl < now - e.timestamp then
          match le with
          | some _ => t
          | none => touchSet t c.nextId now
        else touchSet t id now
      | none =>
        match le with
        | some _ => t
        | none => touchSet t c.nextId now
    | none =>
      match le with
      | some _ => t
      | none => touchSet t c.nextId now

/-- The ordered collection lists elements in strictly descending recency:
every element is touched no earlier than all elements behind it. -/
def recencySorted (t : List (Nat × Int)) (l : List Nat) : Prop :=
  l.Pairwise (fun a b => touchVal t b ≤ touchVal t a)

/-- All recorded touches of listed elements are at or before instant `T`. -/
def touchBdd (t : List (Nat × Int)) (l : List Nat) (T : Int) : Prop :=
  ∀ id ∈ l, touchVal t id ≤ T

/-- Reachability together with the ghost touch record and the instant of
the last operation; steps must happen at nondecreasing instants. -/
inductive ReachT (K V E : Type) [DecidableEq K] (capacity ttl : Int) :
    CacheState K V → List (Nat × Int) → Int → Prop where
  | base (T : Int) : ReachT K V E capacity ttl (NewInMemoryCache K V capacity ttl) [] T
  | step {c c' : CacheState K V} {t : List (Nat × Int)} {T : Int} (op : Op K V E) :
      ReachT K V E capacity ttl c t T → T ≤ opTime op → applyOp c op = some c' →
      ReachT K V E capacity ttl c' (touchUpd c t op) (opTime op)

/-- Structural well-formedness maintained by every operation: the list has
no duplicate element ids, every listed id is allocated in the heap, the
list respects a positive capacity, and all listed ids were allocated. -/
structure WF (c : CacheState K V) : Prop where
  nodup : c.list.Nodup
  inHeap : ∀ id ∈ c.list, (getEntry c.elems id).isSome
  lenLe : 0 < c.capacity → (c.list.length : Int) ≤ c.capacity
  idsLt : ∀ id ∈ c.list, id < c.nextId

/-- Number of map entries whose element holds a live (unexpired) record at
instant `now`; exactly the keys for which `Get` would report a hit. -/
def liveEntryCount (c : CacheState K V) (now : Int) : Nat :=
  (c.cache.filter (fun p =>
    match getEntry c.elems p.2 with
    | some e => decide (now - e.timestamp ≤ c.ttl)
    | none => false)).length

/-- The key set of the map. -/
def mapKeys (c : CacheState K V) : List K :=
  c.cache.map (fun p => p.1)

/-- The keys of the entries present in the ordered collection. -/
def listKeys (c : CacheState K V) : List K :=
  c.list.filterMap (fun id => (getEntry c.elems id).map (fun e => e.key))

/-- State of a capacity-1, ttl-0 cache after `Put(1, 10)` at instant 0 and
an expired `Get(1)` at instant 1: the element left the list but key 1 is
still mapped. -/
def afterExpiredGet : CacheState Nat Nat :=
  { cache := [(1, 0)], list := [],
    elems := [(0, { key := 1, value := 10, timestamp := 0 })],
    nextId := 1, capacity := 1, ttl := 0 }

/-- The previous state after `Put(1, 20)` at instant 1 revives the orphaned
entry (fresh timestamp, still outside the list) and `Put(2, 30)` at
instant 1 inserts a second key: two live entries in a capacity-1 cache. -/
def afterSecondInsert : CacheState Nat Nat :=
  { cache := [(2, 1), (1, 0)], list := [1],
    elems := [(1, { key := 2, value := 30, timestamp := 1 }),
              (0, { key := 1, value := 20, timestamp := 1 })],
    nextId := 2, capacity := 1, ttl := 0 }

/-- A capacity-1, ttl-0 cache after `Put(1, 10)` at instant 0. -/
def afterFirstPut : CacheState Nat Nat :=
  { cache := [(1, 0)], list := [0],
    elems := [(0, { key := 1, value := 10, timestamp := 0 })],
    nextId := 1, capacity := 1, ttl := 0 }

/-- A capacity-1, ttl-0 cache holding an orphaned but live entry: after
`Put(1, 10)` at 0, the expired `Get(1)` at 1 detached the element, and
`Put(1, 20)` at 1 refreshed it in place, outside the list. -/
def orphanLive : CacheState Nat Nat :=
  { cache := [(1, 0)], list := [],
    elems := [(0, { key := 1, value := 20, timestamp := 1 })],
    nextId := 1, capacity := 1, ttl := 0 }

/-- A capacity-2, ttl-0 cache after `Put(1, 10)` and `Put(2, 20)` at
instant 0; both entries are expired at instant 1. -/
def twoExpired : CacheState Nat Nat :=
  { cache := [(2, 1), (1, 0)], list := [1, 0],
    elems := [(1, { key := 2, value := 20, timestamp := 0 }),
              (0, { key := 1, value := 10, timestamp := 0 })],
    nextId := 2, capacity := 2, ttl := 0 }

/-- A capacity-2, ttl-2 cache holding an orphaned live entry (key 1, last
written at 3, detached from the list by an expired `Get` at 3) plus two
listed entries (key 2 written at 4, key 3 at 5); the list is full. -/
def orphanFull : CacheState Nat Nat :=
  { cache := [(3, 2), (2, 1), (1, 0)], list := [2, 1],
    elems := [(2, { key := 3, value := 40, timestamp := 5 }),
              (1, { key := 2, value := 30, timestamp := 4 }),
              (0, { key := 1, value := 20, timestamp := 3 })],
    nextId := 3, capacity := 2, ttl := 2 }

/-! Basic lemmas about the helper functions. -/

theorem getEntry_cons (n : Nat) (e : EntryRec K V) (es : List (Nat × EntryRec K V)) (id : Nat) :
    getEntry ((n, e) :: es) id = if n = id then some e else getEntry es id := by
  by_cases h : n = id <;> simp [getEntry, List.find?_cons, h]

theorem setValueTimestamp_cons (n : Nat) (e : EntryRec K V) (es : List (Nat × EntryRec K V))
    (id : Nat) (v : V) (ts : Int) :
    setValueTimestamp ((n, e) :: es) id v ts =
      (if n = id then (n, { e with value := v, timestamp := ts }) else (n, e)) ::
        setValueTimestamp es id v ts := by
  by_cases h : n = id <;> simp [setValueTimestamp, h]

theorem getEntry_setValueTimestamp (es : List (Nat × EntryRec K V)) (id : Nat) (v : V) (ts : Int)
    (j : Nat) :
    getEntry (setValueTimestamp es id v ts) j =
      if j = id then (getEntry es id).map (fun e => { e with value := v, timestamp := ts })
      else getEntry es j := by
  induction es with
  | nil => by_cases h : j = id <;> simp [setValueTimestamp, getEntry, h]
  | cons p es ih =>
    obtain ⟨n, e⟩ := p
    rw [setValueTimestamp_cons]
    by_cases hn : n = id
    · subst hn
      by_cases hj : j = n
      · subst hj
        simp [getEntry_cons]
      · have h1 : ¬n = j := fun hh => hj hh.symm
        simp [getEntry_cons, h1, hj, ih]
    · by_cases hj : j = n
      · subst hj
        simp [getEntry_cons, hn]
      · have h1 : ¬n = j := fun hh => hj hh.symm
        simp [getEntry_cons, hn, h1, hj, ih]

theorem lookupMap_cons (p : K × Nat) (m : List (K × Nat)) (k : K) :
    lookupMap (p :: m) k = if p.1 = k then some p.2 else lookupMap m k := by
  by_cases h : p.1 = k <;> simp [lookupMap, List.find?_cons, h]

theorem eraseKey_cons (p : K × Nat) (m : List (K × Nat)) (k : K) :
    eraseKey (p :: m) k = if p.1 = k then eraseKey m k else p :: eraseKey m k := by
  by_cases h : p.1 = k <;> simp [eraseKey, List.filter_cons, h]

theorem lookupMap_eraseKey_self (m : List (K × Nat)) (k : K) :
    lookupMap (eraseKey m k) k = none := by
  induction m with
  | nil => rfl
  | cons p m ih =>
    rw [eraseKey_cons]
    by_cases hp : p.1 = k
    · rwa [if_pos hp]
    · rw [if_neg hp, lookupMap_cons, if_neg hp]
      exact ih

theorem lookupMap_eraseKey_ne (m : List (K × Nat)) (k k' : K) (h : k' ≠ k) :
    lookupMap (eraseKey m k) k' = lookupMap m k' := by
  induction m with
  | nil => rfl
  | cons p m ih =>
    rw [eraseKey_cons]
    by_cases hp : p.1 = k
    · have hp' : ¬p.1 = k' := fun hh => h (hh.symm.trans hp)
      rw [if_pos hp, lookupMap_cons, if_neg hp']
      exact ih
    · rw [if_neg hp, lookupMap_cons, lookupMap_cons]
      by_cases hpk : p.1 = k' <;> simp [hpk, ih]

theorem lookupMap_setKey (m : List (K × Nat)) (k k' : K) (id : Nat) :
    lookupMap (setKey m k id) k' = if k' = k then some id else lookupMap m k' := by
  by_cases h : k' = k
  · subst h; simp [setKey, lookupMap_cons]
  · simp only [setKey, lookupMap_cons, if_neg h]
    rw [if_neg (fun hh => h hh.symm)]
    exact lookupMap_eraseKey_ne m k k' h

theorem touchVal_touchSet_self (t : List (Nat × Int)) (id : Nat) (v : Int) :
    touchVal (touchSet t id v) id = v := by
  simp [touchVal, touchSet, List.find?_cons]

theorem touchVal_touchSet_ne (t : List (Nat × Int)) (id j : Nat) (v : Int) (h : j ≠ id) :
    touchVal (touchSet t id v) j = touchVal t j := by
  have h1 : ¬id = j := fun hh => h hh.symm
  simp [touchVal, touchSet, List.find?_cons, h1]

theorem mem_moveToFront (l : List Nat) (id a : Nat) :
    a ∈ moveToFront l id ↔ a ∈ l := by
  unfold moveToFront
  by_cases h : id ∈ l
  · simp only [if_pos h, List.mem_cons]
    constructor
    · rintro (rfl | ha)
      · exact h
      · exact List.mem_of_mem_erase ha
    · intro ha
      by_cases hai : a = id
      · exact Or.inl hai
      · exact Or.inr (List.mem_erase_of_ne hai |>.mpr ha)
  · rw [if_neg h]

theorem nodup_moveToFront (l : List Nat) (id : Nat) (h : l.Nodup) :
    (moveToFront l id).Nodup := by
  unfold moveToFront
  by_cases hm : id ∈ l
  · simp only [if_pos hm, List.nodup_cons]
    exact ⟨h.not_mem_erase, h.erase id⟩
  · rwa [if_neg hm]

theorem length_moveToFront (l : List Nat) (id : Nat) :
    (moveToFront l id).length = l.length := by
  unfold moveToFront
  by_cases hm : id ∈ l
  · rw [if_pos hm]
    have hpos : 0 < l.length := List.length_pos.mpr (List.ne_nil_of_mem hm)
    simp only [List.length_cons, List.length_erase_of_mem hm]
    omega
  · rw [if_neg hm]

theorem isSome_getEntry_setValueTimestamp (es : List (Nat × EntryRec K V)) (id : Nat) (v : V)
    (ts : Int) (j : Nat) :
    (getEntry (setValueTimestamp es id v ts) j).isSome = (getEntry es j).isSome := by
  rw [getEntry_setValueTimestamp]
  by_cases h : j = id <;> simp [h]

/-! Preservation of structural well-formedness. -/

theorem wf_listRemove (c : CacheState K V) (id : Nat) (hwf : WF c) :
    WF { c with list := listRemove c.list id } := by
  refine ⟨hwf.nodup.erase id, ?_, ?_, ?_⟩
  · intro j hj
    exact hwf.inHeap j (List.mem_of_mem_erase hj)
  · intro hc
    have h1 : (listRemove c.list id).length ≤ c.list.length :=
      (List.erase_sublist id c.list).length_le
    calc ((listRemove c.list id).length : Int) ≤ (c.list.length : Int) := by exact_mod_cast h1
      _ ≤ c.capacity := hwf.lenLe hc
  · intro j hj
    exact hwf.idsLt j (List.mem_of_mem_erase hj)

theorem wf_moveToFront (c : CacheState K V) (id : Nat)
    (es : List (Nat × EntryRec K V))
    (hes : ∀ j, (getEntry es j).isSome = (getEntry c.elems j).isSome)
    (hwf : WF c) :
    WF { c with elems := es, list := moveToFront c.list id } := by
  refine ⟨nodup_moveToFront _ _ hwf.nodup, ?_, ?_, ?_⟩
  · intro j hj
    rw [hes j]
    exact hwf.inHeap j ((mem_moveToFront _ _ _).mp hj)
  · intro hc
    rw [length_moveToFront]
    exact hwf.lenLe hc
  · intro j hj
    exact hwf.idsLt j ((mem_moveToFront _ _ _).mp hj)

theorem wf_setCache (c : CacheState K V) (m : List (K × Nat)) (hwf : WF c) :
    WF { c with cache := m } :=
  ⟨hwf.nodup, hwf.inHeap, hwf.lenLe, hwf.idsLt⟩

theorem wf_evictIfFull (c c1 : CacheState K V) (hwf : WF c) (h : evictIfFull c = some c1) :
    WF c1 ∧ c1.elems = c.elems ∧ c1.nextId = c.nextId ∧ c1.capacity = c.capacity ∧
      c1.ttl = c.ttl ∧ (0 < c1.capacity → (c1.list.length : Int) < c1.capacity) ∧
      List.Sublist c1.list c.list := by
  unfold evictIfFull at h
  split at h
  · rename_i hfull
    split at h
    · rename_i backId hb
      split at h
      · rename_i be hge
        cases h
        have hmem : backId ∈ c.list := List.mem_of_mem_getLast? hb
        refine ⟨wf_setCache { c with list := listRemove c.list backId }
          (eraseKey c.cache be.key) (wf_listRemove c backId hwf), rfl, rfl, rfl, rfl, ?_,
          List.erase_sublist backId c.list⟩
        intro hc
        have hlen : (listRemove c.list backId).length = c.list.length - 1 :=
          List.length_erase_of_mem hmem
        have hpos : 0 < c.list.length := List.length_pos.mpr (List.ne_nil_of_mem hmem)
        have hle : (c.list.length : Int) ≤ c.capacity := hwf.lenLe hc
        simp only [listRemove] at hlen ⊢
        rw [hlen]
        omega
      · exact absurd h (by simp)
    · exact absurd h (by simp)
  · rename_i hfull
    cases h
    refine ⟨hwf, rfl, rfl, rfl, rfl, ?_, List.Sublist.refl c.list⟩
    intro _
    omega

theorem wf_pushNew (c : CacheState K V) (k : K) (v : V) (now : Int) (hwf : WF c)
    (hroom : 0 < c.capacity → (c.list.length : Int) < c.capacity) :
    WF (pushNew c k v now) := by
  have hnotmem : c.nextId ∉ c.list := fun hmem => absurd (hwf.idsLt _ hmem) (lt_irrefl _)
  refine ⟨?_, ?_, ?_, ?_⟩
  · simp only [pushNew, List.nodup_cons]
    exact ⟨hnotmem, hwf.nodup⟩
  · intro j hj
    simp only [pushNew] at hj ⊢
    rw [getEntry_cons]
    rcases List.mem_cons.mp hj with rfl | hj'
    · simp
    · have hlt := hwf.idsLt j hj'
      rw [if_neg (by omega : ¬c.nextId = j)]
      exact hwf.inHeap j hj'
  · intro hc
    simp only [pushNew] at hc ⊢
    have hr := hroom hc
    simp only [List.length_cons]
    push_cast
    omega
  · intro j hj
    simp only [pushNew] at hj ⊢
    rcases List.mem_cons.mp hj with rfl | hj'
    · omega
    · have := hwf.idsLt j hj'
      omega

theorem wf_Get (c : CacheState K V) (k : K) (now : Int) (hwf : WF c) : WF (Get c k now).2 := by
  rcases h1 : lookupMap c.cache k with _ | id
  · simpa [Get, h1] using hwf
  · rcases h2 : getEntry c.elems id with _ | e
    · simpa [Get, h1, h2] using hwf
    · by_cases h3 : c.ttl < now - e.timestamp
      · simpa [Get, h1, h2, h3] using wf_listRemove c id hwf
      · simpa [Get, h1, h2, h3] using wf_moveToFront c id c.elems (fun _ => rfl) hwf

theorem wf_Put (c c' : CacheState K V) (k : K) (v : V) (now : Int) (hwf : WF c)
    (h : Put c k v now = some c') : WF c' := by
  unfold Put at h
  rcases h1 : lookupMap c.cache k with _ | id
  · rw [h1] at h
    rcases h2 : evictIfFull c with _ | c1
    · rw [h2] at h
      exact absurd h (by simp)
    · rw [h2] at h
      simp only [Option.map_some', Option.some.injEq] at h
      subst h
      obtain ⟨hwf1, _, _, hcap, _, hroom, _⟩ := wf_evictIfFull c c1 hwf h2
      exact wf_pushNew c1 k v now hwf1 hroom
  · rw [h1] at h
    simp only [Option.some.injEq] at h
    subst h
    exact wf_moveToFront c id (setValueTimestamp c.elems id v now)
      (fun j => isSome_getEntry_setValueTimestamp c.elems id v now j) hwf

theorem wf_Remove (c : CacheState K V) (k : K) (hwf : WF c) : WF (Remove c k) := by
  rcases h1 : lookupMap c.cache k with _ | id
  · simpa [Remove, h1] using hwf
  · simp only [Remove, h1]
    exact wf_setCache { c with list := listRemove c.list id } (eraseKey c.cache k)
      (wf_listRemove c id hwf)

theorem wf_RemoveExpired (c : CacheState K V) (now : Int) (hwf : WF c) :
    WF (RemoveExpired c now) := by
  rcases h1 : c.list.getLast? with _ | backId
  · simpa [RemoveExpired, h1] using hwf
  · rcases h2 : getEntry c.elems backId with _ | e
    · simpa [RemoveExpired, h1, h2] using hwf
    · by_cases h3 : c.ttl < now - e.timestamp
      · simp only [RemoveExpired, h1, h2, if_pos h3]
        exact wf_setCache { c with list := listRemove c.list backId } (eraseKey c.cache e.key)
          (wf_listRemove c backId hwf)
      · simpa [RemoveExpired, h1, h2, h3] using hwf

theorem wf_Load (c : CacheState K V) (k : K) (lv : V) (le : Option E) (now : Int)
    (r : (V × Option E) × Bool × CacheState K V) (hwf : WF c)
    (h : Load c k lv le now = some r) : WF r.2.2 := by
  have hins : ∀ c1 : CacheState K V, WF c1 →
      ((evictIfFull c1).map
        (fun c2 => ((lv, (none : Option E)), true, pushNew c2 k lv now)) = some r) → WF r.2.2 := by
    intro c1 hwf1 hmap
    rcases h2 : evictIfFull c1 with _ | c2
    · rw [h2] at hmap
      exact absurd hmap (by simp)
    · rw [h2] at hmap
      simp only [Option.map_some', Option.some.injEq] at hmap
      subst hmap
      obtain ⟨hwf2, _, _, _, _, hroom, _⟩ := wf_evictIfFull c1 c2 hwf1 h2
      exact wf_pushNew c2 k lv now hwf2 hroom
  rcases h1 : lookupMap c.cache k with _ | id
  · simp only [Load, h1] at h
    rcases le with _ | err
    · exact hins c hwf h
    · simp only [Option.some.injEq] at h
      subst h
      exact hwf
  · rcases h2 : getEntry c.elems id with _ | e
    · simp only [Load, h1, h2] at h
      rcases le with _ | err
      · exact hins c hwf h
      · simp only [Option.some.injEq] at h
        subst h
        exact hwf
    · by_cases h3 : c.ttl < now - e.timestamp
      · simp only [Load, h1, h2, if_pos h3] at h
        rcases le with _ | err
        · exact hins { c with list := listRemove c.list id } (wf_listRemove c id hwf) h
        · simp only [Option.some.injEq] at h
          subst h
          exact wf_listRemove c id hwf
      · simp only [Load, h1, h2, if_neg h3, Option.some.injEq] at h
        subst h
        exact wf_moveToFront c id c.elems (fun _ => rfl) hwf

theorem wf_applyOp (c c' : CacheState K V) (op : Op K V E) (hwf : WF c)
    (h : applyOp c op = some c') : WF c' := by
  cases op with
  | get k now =>
    simp only [applyOp, Option.some.injEq] at h
    subst h
    exact wf_Get c k now hwf
  | put k v now =>
    exact wf_Put c c' k v now hwf h
  | remove k now =>
    simp only [applyOp, Option.some.injEq] at h
    subst h
    exact wf_Remove c k hwf
  | removeExpired now =>
    simp only [applyOp, Option.some.injEq] at h
    subst h
    exact wf_RemoveExpired c now hwf
  | load k lv le now =>
    simp only [applyOp, Option.map_eq_some'] at h
    obtain ⟨r, hr, hc'⟩ := h
    subst hc'
    exact wf_Load c k lv le now r hwf hr

theorem wf_NewInMemoryCache (capacity ttl : Int) :
    WF (NewInMemoryCache K V capacity ttl) := by
  refine ⟨List.nodup_nil, ?_, ?_, ?_⟩ <;> simp [NewInMemoryCache] <;> omega

theorem wf_Reach (capacity ttl : Int) (c : CacheState K V)
    (h : Reach K V E capacity ttl c) : WF c := by
  induction h with
  | base => exact wf_NewInMemoryCache capacity ttl
  | step op _ happ ih => exact wf_applyOp _ _ op ih happ

/-! Preservation of the ghost recency order. -/

theorem recencySorted_sublist (t : List (Nat × Int)) (l l' : List Nat)
    (hsub : List.Sublist l' l) (hs : recencySorted t l) : recencySorted t l' :=
  hs.sublist hsub

theorem touchBdd_mono (t : List (Nat × Int)) (l l' : List Nat) (T T' : Int)
    (hsub : ∀ a ∈ l', a ∈ l) (hb : touchBdd t l T) (hT : T ≤ T') : touchBdd t l' T' :=
  fun id hid => le_trans (hb id (hsub id hid)) hT

theorem recencySorted_cons_fresh (t : List (Nat × Int)) (l : List Nat) (n : Nat) (now : Int)
    (hne : ∀ b ∈ l, b ≠ n) (hs : recencySorted t l) (hb : ∀ b ∈ l, touchVal t b ≤ now) :
    recencySorted (touchSet t n now) (n :: l) := by
  rw [recencySorted, List.pairwise_cons]
  constructor
  · intro b hbmem
    rw [touchVal_touchSet_self, touchVal_touchSet_ne t n b now (hne b hbmem)]
    exact hb b hbmem
  · refine List.Pairwise.imp_of_mem ?_ hs
    intro a b ha hb2 hrel
    rw [touchVal_touchSet_ne t n a now (hne a ha), touchVal_touchSet_ne t n b now (hne b hb2)]
    exact hrel

theorem touchBdd_cons_fresh (t : List (Nat × Int)) (l : List Nat) (n : Nat) (now T : Int)
    (hne : ∀ b ∈ l, b ≠ n) (hb : touchBdd t l T) (hT : T ≤ now) :
    touchBdd (touchSet t n now) (n :: l) now := by
  intro id hid
  rcases List.mem_cons.mp hid with rfl | hid'
  · rw [touchVal_touchSet_self]
  · rw [touchVal_touchSet_ne t n id now (hne id hid')]
    exact le_trans (hb id hid') hT

theorem recencySorted_untouched (t : List (Nat × Int)) (l : List Nat) (n : Nat) (now : Int)
    (hne : n ∉ l) (hs : recencySorted t l) : recencySorted (touchSet t n now) l := by
  refine List.Pairwise.imp_of_mem ?_ hs
  intro a b ha hb hrel
  rw [touchVal_touchSet_ne t n a now (fun hh => hne (hh ▸ ha)),
    touchVal_touchSet_ne t n b now (fun hh => hne (hh ▸ hb))]
  exact hrel

theorem touchBdd_untouched (t : List (Nat × Int)) (l : List Nat) (n : Nat) (now T : Int)
    (hne : n ∉ l) (hb : touchBdd t l T) (hT : T ≤ now) :
    touchBdd (touchSet t n now) l now := by
  intro id hid
  rw [touchVal_touchSet_ne t n id now (fun hh => hne (hh ▸ hid))]
  exact le_trans (hb id hid) hT

theorem sorted_moveToFront (c : CacheState K V) (id : Nat) (now T : Int)
    (t : List (Nat × Int)) (hwf : WF c) (hs : recencySorted t c.list)
    (hb : touchBdd t c.list T) (hT : T ≤ now) :
    recencySorted (touchSet t id now) (moveToFront c.list id) ∧
      touchBdd (touchSet t id now) (moveToFront c.list id) now := by
  unfold moveToFront
  by_cases hm : id ∈ c.list
  · rw [if_pos hm]
    have hne : ∀ b ∈ c.list.erase id, b ≠ id := fun b hbm =>
      (hwf.nodup.mem_erase_iff.mp hbm).1
    have hsub : List.Sublist (c.list.erase id) c.list := List.erase_sublist id c.list
    constructor
    · exact recencySorted_cons_fresh t _ id now hne (hs.sublist hsub)
        (fun b hbm => le_trans (hb b (hsub.mem hbm)) hT)
    · exact touchBdd_cons_fresh t _ id now T hne
        (fun b hbm => hb b (hsub.mem hbm)) hT
  · rw [if_neg hm]
    exact ⟨recencySorted_untouched t c.list id now hm hs,
      touchBdd_untouched t c.list id now T hm hb hT⟩

theorem sorted_push (c c1 : CacheState K V) (k : K) (v : V) (now T : Int)
    (t : List (Nat × Int)) (hsub : List.Sublist c1.list c.list) (hnid : c1.nextId = c.nextId)
    (hwf : WF c) (hs : recencySorted t c.list) (hb : touchBdd t c.list T) (hT : T ≤ now) :
    recencySorted (touchSet t c.nextId now) (pushNew c1 k v now).list ∧
      touchBdd (touchSet t c.nextId now) (pushNew c1 k v now).list now := by
  have hne : ∀ b ∈ c1.list, b ≠ c.nextId := fun b hbm =>
    Nat.ne_of_lt (hwf.idsLt b (hsub.mem hbm))
  have hlist : (pushNew c1 k v now).list = c.nextId :: c1.list := by
    simp [pushNew, hnid]
  rw [hlist]
  constructor
  · exact recencySorted_cons_fresh t c1.list c.nextId now hne (hs.sublist hsub)
      (fun b hbm => le_trans (hb b (hsub.mem hbm)) hT)
  · exact touchBdd_cons_fresh t c1.list c.nextId now T hne
      (fun b hbm => hb b (hsub.mem hbm)) hT

theorem recencySorted_getLast_min (t : List (Nat × Int)) (l : List Nat) (b : Nat)
    (hs : recencySorted t l) (hb : l.getLast? = some b) :
    ∀ a ∈ l, touchVal t b ≤ touchVal t a := by
  induction l with
  | nil => simp at hb
  | cons x l ih =>
    rcases List.pairwise_cons.mp hs with ⟨hx, hl⟩
    cases l with
    | nil =>
      intro a ha
      simp only [List.getLast?_singleton, Option.some.injEq] at hb
      rcases List.mem_singleton.mp ha with rfl
      rw [hb]
    | cons y l' =>
      have hb' : (y :: l').getLast? = some b := by
        rwa [List.getLast?_cons_cons] at hb
      intro a ha
      rcases List.mem_cons.mp ha with rfl | ha'
      · exact hx b (List.mem_of_mem_getLast? hb')
      · exact ih hl hb' a ha'

theorem invT_step (c c' : CacheState K V) (t : List (Nat × Int)) (T : Int) (op : Op K V E)
    (hwf : WF c) (hs : recencySorted t c.list) (hb : touchBdd t c.list T)
    (hT : T ≤ opTime op) (happ : applyOp c op = some c') :
    recencySorted (touchUpd c t op) c'.list ∧
      touchBdd (touchUpd c t op) c'.list (opTime op) := by
  cases op with
  | get k now =>
    simp only [applyOp, Option.some.injEq] at happ
    subst happ
    simp only [opTime] at hT ⊢
    rcases h1 : lookupMap c.cache k with _ | id
    · simp only [Get, touchUpd, h1]
      exact ⟨hs, touchBdd_mono t _ _ T now (fun a ha => ha) hb hT⟩
    · rcases h2 : getEntry c.elems id with _ | e
      · simp only [Get, touchUpd, h1, h2]
        exact ⟨hs, touchBdd_mono t _ _ T now (fun a ha => ha) hb hT⟩
      · by_cases h3 : c.ttl < now - e.timestamp
        · simp only [Get, touchUpd, h1, h2, if_pos h3]
          exact ⟨hs.sublist (List.erase_sublist id c.list),
            touchBdd_mono t _ _ T now (fun a ha => List.mem_of_mem_erase ha) hb hT⟩
        · simp only [Get, touchUpd, h1, h2, if_neg h3]
          exact sorted_moveToFront c id now T t hwf hs hb hT
  | put k v now =>
    simp only [applyOp] at happ
    simp only [opTime] at hT ⊢
    rcases h1 : lookupMap c.cache k with _ | id
    · simp only [Put, h1] at happ
      rcases h2 : evictIfFull c with _ | c1
      · rw [h2] at happ
        exact absurd happ (by simp)
      · rw [h2] at happ
        simp only [Option.map_some', Option.some.injEq] at happ
        subst happ
        obtain ⟨hwf1, _, hnid, _, _, _, hsub⟩ := wf_evictIfFull c c1 hwf h2
        simp only [touchUpd, h1]
        exact sorted_push c c1 k v now T t hsub hnid hwf hs hb hT
    · simp only [Put, h1, Option.some.injEq] at happ
      subst happ
      simp only [touchUpd, h1]
      exact sorted_moveToFront c id now T t hwf hs hb hT
  | remove k nowr =>
    simp only [applyOp, Option.some.injEq] at happ
    subst happ
    simp only [opTime] at hT ⊢
    simp only [touchUpd]
    rcases h1 : lookupMap c.cache k with _ | id
    · simp only [Remove, h1]
      exact ⟨hs, touchBdd_mono t _ _ T nowr (fun a ha => ha) hb hT⟩
    · simp only [Remove, h1]
      exact ⟨hs.sublist (List.erase_sublist id c.list),
        touchBdd_mono t _ _ T nowr (fun a ha => List.mem_of_mem_erase ha) hb hT⟩
  | removeExpired now =>
    simp only [applyOp, Option.some.injEq] at happ
    subst happ
    simp only [opTime] at hT ⊢
    simp only [touchUpd]
    rcases h1 : c.list.getLast? with _ | backId
    · simp only [RemoveExpired, h1]
      exact ⟨hs, touchBdd_mono t _ _ T now (fun a ha => ha) hb hT⟩
    · rcases h2 : getEntry c.elems backId with _ | e
      · simp only [RemoveExpired, h1, h2]
        exact ⟨hs, touchBdd_mono t _ _ T now (fun a ha => ha) hb hT⟩
      · by_cases h3 : c.ttl < now - e.timestamp
        · simp only [RemoveExpired, h1, h2, if_pos h3]
          exact ⟨hs.sublist (List.erase_sublist backId c.list),
            touchBdd_mono t _ _ T now (fun a ha => List.mem_of_mem_erase ha) hb hT⟩
        · simp only [RemoveExpired, h1, h2, if_neg h3]
          exact ⟨hs, touchBdd_mono t _ _ T now (fun a ha => ha) hb hT⟩
  | load k lv le now =>
    simp only [applyOp] at happ
    simp only [opTime] at hT ⊢
    rcases le with _ | err
    · rcases h1 : lookupMap c.cache k with _ | id
      · simp only [Load, h1] at happ
        simp only [touchUpd, h1]
        rcases h2 : evictIfFull c with _ | c1
        · rw [h2] at happ
          exact absurd happ (by simp)
        · rw [h2] at happ
          simp only [Option.map_some', Option.some.injEq] at happ
          subst happ
          obtain ⟨hwf1, _, hnid, _, _, _, hsub⟩ := wf_evictIfFull c c1 hwf h2
          exact sorted_push c c1 k lv now T t hsub hnid hwf hs hb hT
      · rcases h2 : getEntry c.elems id with _ | e
        · simp only [Load, h1, h2] at happ
          simp only [touchUpd, h1, h2]
          rcases h4 : evictIfFull c with _ | c1
          · rw [h4] at happ
            exact absurd happ (by simp)
          · rw [h4] at happ
            simp only [Option.map_some', Option.some.injEq] at happ
            subst happ
            obtain ⟨hwf1, _, hnid, _, _, _, hsub⟩ := wf_evictIfFull c c1 hwf h4
            exact sorted_push c c1 k lv now T t hsub hnid hwf hs hb hT
        · by_cases h3 : c.ttl < now - e.timestamp
          · simp only [Load, h1, h2, if_pos h3] at happ
            simp only [touchUpd, h1, h2, if_pos h3]
            rcases h4 : evictIfFull { c with list := listRemove c.list id } with _ | c1
            · rw [h4] at happ
              exact absurd happ (by simp)
            · rw [h4] at happ
              simp only [Option.map_some', Option.some.injEq] at happ
              subst happ
              obtain ⟨hwf1, _, hnid, _, _, _, hsub⟩ :=
                wf_evictIfFull { c with list := listRemove c.list id } c1
                  (wf_listRemove c id hwf) h4
              exact sorted_push c c1 k lv now T t
                (hsub.trans (List.erase_sublist id c.list)) hnid hwf hs hb hT
          · simp only [Load, h1, h2, if_neg h3, Option.map_some', Option.some.injEq] at happ
            subst happ
            simp only [touchUpd, h1, h2, if_neg h3]
            exact sorted_moveToFront c id now T t hwf hs hb hT
    · rcases h1 : lookupMap c.cache k with _ | id
      · simp only [Load, h1, Option.map_some', Option.some.injEq] at happ
        subst happ
        simp only [touchUpd, h1]
        exact ⟨hs, touchBdd_mono t _ _ T now (fun a ha => ha) hb hT⟩
      · rcases h2 : getEntry c.elems id with _ | e
        · simp only [Load, h1, h2, Option.map_some', Option.some.injEq] at happ
          subst happ
          simp only [touchUpd, h1, h2]
          exact ⟨hs, touchBdd_mono t _ _ T now (fun a ha => ha) hb hT⟩
        · by_cases h3 : c.ttl < now - e.timestamp
          · simp only [Load, h1, h2, if_pos h3, Option.map_some', Option.some.injEq] at happ
            subst happ
            simp only [touchUpd, h1, h2, if_pos h3]
            exact ⟨hs.sublist (List.erase_sublist id c.list),
              touchBdd_mono t _ _ T now (fun a ha => List.mem_of_mem_erase ha) hb hT⟩
          · simp only [Load, h1, h2, if_neg h3, Option.map_some', Option.some.injEq] at happ
            subst happ
            simp only [touchUpd, h1, h2, if_neg h3]
            exact sorted_moveToFront c id now T t hwf hs hb hT

theorem reachT_inv (capacity ttl : Int) (c : CacheState K V) (t : List (Nat × Int)) (T : Int)
    (h : ReachT K V E capacity ttl c t T) :
    WF c ∧ recencySorted t c.list ∧ touchBdd t c.list T := by
  induction h with
  | base T =>
    refine ⟨wf_NewInMemoryCache capacity ttl, ?_, ?_⟩
    · simp [NewInMemoryCache, recencySorted]
    · intro id hid
      simp [NewInMemoryCache] at hid
  | step op hR hle happ ih =>
    obtain ⟨hwf, hs, hb⟩ := ih
    exact ⟨wf_applyOp _ _ op hwf happ,
      invT_step _ _ _ _ op hwf hs hb hle happ⟩

theorem evictIfFull_fields (c c1 : CacheState K V) (h : evictIfFull c = some c1) :
    c1.elems = c.elems ∧ c1.nextId = c.nextId ∧ c1.capacity = c.capacity ∧ c1.ttl = c.ttl := by
  unfold evictIfFull at h
  split at h
  · split at h
    · split at h
      · cases h
        exact ⟨rfl, rfl, rfl, rfl⟩
      · exact absurd h (by simp)
    · exact absurd h (by simp)
  · cases h
    exact ⟨rfl, rfl, rfl, rfl⟩

theorem config_applyOp (c c' : CacheState K V) (op : Op K V E) (h : applyOp c op = some c') :
    c'.capacity = c.capacity ∧ c'.ttl = c.ttl := by
  cases op with
  | get k now =>
    simp only [applyOp, Option.some.injEq] at h
    subst h
    rcases h1 : lookupMap c.cache k with _ | id
    · simp [Get, h1]
    · rcases h2 : getEntry c.elems id with _ | e
      · simp [Get, h1, h2]
      · by_cases h3 : c.ttl < now - e.timestamp <;> simp [Get, h1, h2, h3]
  | put k v now =>
    simp only [applyOp] at h
    rcases h1 : lookupMap c.cache k with _ | id
    · simp only [Put, h1] at h
      rcases h2 : evictIfFull c with _ | c1
      · rw [h2] at h
        exact absurd h (by simp)
      · rw [h2] at h
        simp only [Option.map_some', Option.some.injEq] at h
        subst h
        obtain ⟨_, _, hcap, httl⟩ := evictIfFull_fields c c1 h2
        exact ⟨hcap, httl⟩
    · simp only [Put, h1, Option.some.injEq] at h
      subst h
      exact ⟨rfl, rfl⟩
  | remove k nowr =>
    simp only [applyOp, Option.some.injEq] at h
    subst h
    rcases h1 : lookupMap c.cache k with _ | id <;> simp [Remove, h1]
  | removeExpired now =>
    simp only [applyOp, Option.some.injEq] at h
    subst h
    rcases h1 : c.list.getLast? with _ | backId
    · simp [RemoveExpired, h1]
    · rcases h2 : getEntry c.elems backId with _ | e
      · simp [RemoveExpired, h1, h2]
      · by_cases h3 : c.ttl < now - e.timestamp <;> simp [RemoveExpired, h1, h2, h3]
  | load k lv le now =>
    simp only [applyOp] at h
    have hins : ∀ c1 : CacheState K V, c1.capacity = c.capacity → c1.ttl = c.ttl →
        ((evictIfFull c1).map
          (fun c2 => ((lv, (none : Option E)), true, pushNew c2 k lv now))).map
            (fun r => r.2.2) = some c' →
        c'.capacity = c.capacity ∧ c'.ttl = c.ttl := by
      intro c1 hc1 ht1 hmap
      rcases h2 : evictIfFull c1 with _ | c2
      · rw [h2] at hmap
        exact absurd hmap (by simp)
      · rw [h2] at hmap
        simp only [Option.map_some', Option.some.injEq] at hmap
        subst hmap
        obtain ⟨_, _, hcap, httl⟩ := evictIfFull_fields c1 c2 h2
        exact ⟨hcap.trans hc1, httl.trans ht1⟩
    rcases le with _ | err
    · rcases h1 : lookupMap c.cache k with _ | id
      · simp only [Load, h1] at h
        exact hins c rfl rfl h
      · rcases h2 : getEntry c.elems id with _ | e
        · simp only [Load, h1, h2] at h
          exact hins c rfl rfl h
        · by_cases h3 : c.ttl < now - e.timestamp
          · simp only [Load, h1, h2, if_pos h3] at h
            exact hins { c with list := listRemove c.list id } rfl rfl h
          · simp only [Load, h1, h2, if_neg h3, Option.map_some', Option.some.injEq] at h
            subst h
            exact ⟨rfl, rfl⟩
    · rcases h1 : lookupMap c.cache k with _ | id
      · simp only [Load, h1, Option.map_some', Option.some.injEq] at h
        subst h
        exact ⟨rfl, rfl⟩
      · rcases h2 : getEntry c.elems id with _ | e
        · simp only [Load, h1, h2, Option.map_some', Option.some.injEq] at h
          subst h
          exact ⟨rfl, rfl⟩
        · by_cases h3 : c.ttl < now - e.timestamp
          · simp only [Load, h1, h2, if_pos h3, Option.map_some', Option.some.injEq] at h
            subst h
            exact ⟨rfl, rfl⟩
          · simp only [Load, h1, h2, if_neg h3, Option.map_some', Option.some.injEq] at h
            subst h
            exact ⟨rfl, rfl⟩

theorem reach_config (capacity ttl : Int) (c : CacheState K V)
    (h : Reach K V E capacity ttl c) : c.capacity = capacity ∧ c.ttl = ttl := by
  induction h with
  | base => exact ⟨rfl, rfl⟩
  | step op hR happ ih =>
    obtain ⟨h1, h2⟩ := config_applyOp _ _ op happ
    exact ⟨h1.trans ih.1, h2.trans ih.2⟩

theorem evictIfFull_isSome (c : CacheState K V) (hwf : WF c) (hcap : 0 < c.capacity) :
    (evictIfFull c).isSome := by
  unfold evictIfFull
  by_cases hfull : c.capacity ≤ (c.list.length : Int)
  · rw [if_pos hfull]
    have hlen : 0 < c.list.length := by omega
    have hne : c.list ≠ [] := List.ne_nil_of_length_pos hlen
    obtain ⟨b, hb⟩ := Option.isSome_iff_exists.mp (List.getLast?_isSome.mpr hne)
    have hmem : b ∈ c.list := List.mem_of_mem_getLast? hb
    obtain ⟨be, hbe⟩ := Option.isSome_iff_exists.mp (hwf.inHeap b hmem)
    simp [hb, hbe]
  · rw [if_neg hfull]
    rfl

theorem put_isSome (c : CacheState K V) (k : K) (v : V) (now : Int) (hwf : WF c)
    (hcap : 0 < c.capacity) : (Put c k v now).isSome := by
  rcases h1 : lookupMap c.cache k with _ | id
  · have hev := evictIfFull_isSome c hwf hcap
    rcases h2 : evictIfFull c with _ | c1
    · rw [h2] at hev
      simp at hev
    · simp [Put, h1, h2]
  · simp [Put, h1]

theorem load_isSome (c : CacheState K V) (k : K) (lv : V) (le : Option E) (now : Int)
    (hwf : WF c) (hcap : 0 < c.capacity) : (Load c k lv le now).isSome := by
  have hins : ∀ c1 : CacheState K V, WF c1 → c1.capacity = c.capacity →
      ((evictIfFull c1).map
        (fun c2 => ((lv, (none : Option E)), true, pushNew c2 k lv now))).isSome := by
    intro c1 hwf1 hc1
    have hev := evictIfFull_isSome c1 hwf1 (hc1 ▸ hcap)
    rcases h2 : evictIfFull c1 with _ | c2
    · rw [h2] at hev
      simp at hev
    · simp [h2]
  rcases h1 : lookupMap c.cache k with _ | id
  · rcases le with _ | err
    · simpa [Load, h1] using hins c hwf rfl
    · simp [Load, h1]
  · rcases h2 : getEntry c.elems id with _ | e
    · rcases le with _ | err
      · simpa [Load, h1, h2] using hins c hwf rfl
      · simp [Load, h1, h2]
    · by_cases h3 : c.ttl < now - e.timestamp
      · rcases le with _ | err
        · simpa [Load, h1, h2, h3] using
            hins { c with list := listRemove c.list id } (wf_listRemove c id hwf) rfl
        · simp [Load, h1, h2, h3]
      · simp [Load, h1, h2, h3]

/-! Claim theorems. -/

/-- C9: no refresh on read.  `Get` leaves every entry record (in
particular every timestamp) unchanged, and so do `Remove`,
`RemoveExpired`, and a `Load` whose loader fails; only `Put` and a
successful `Load` write to the entry heap. -/
theorem c9_no_refresh_on_read (c : CacheState K V) (k : K) (now : Int) :
    (Get c k now).2.elems = c.elems ∧
    (Remove c k).elems = c.elems ∧
    (RemoveExpired c now).elems = c.elems ∧
    (∀ (lv : V) (err : E) (r : (V × Option E) × Bool × CacheState K V),
      Load c k lv (some err) now = some r → r.2.2.elems = c.elems) := by
  refine ⟨?_, ?_, ?_, ?_⟩
  · rcases h1 : lookupMap c.cache k with _ | id
    · simp [Get, h1]
    · rcases h2 : getEntry c.elems id with _ | e
      · simp [Get, h1, h2]
      · by_cases h3 : c.ttl < now - e.timestamp <;> simp [Get, h1, h2, h3]
  · rcases h1 : lookupMap c.cache k with _ | id <;> simp [Remove, h1]
  · rcases h1 : c.list.getLast? with _ | backId
    · simp [RemoveExpired, h1]
    · rcases h2 : getEntry c.elems backId with _ | e
      · simp [RemoveExpired, h1, h2]
      · by_cases h3 : c.ttl < now - e.timestamp <;> simp [RemoveExpired, h1, h2, h3]
  · intro lv err r h
    rcases h1 : lookupMap c.cache k with _ | id
    · simp only [Load, h1, Option.some.injEq] at h
      subst h
      rfl
    · rcases h2 : getEntry c.elems id with _ | e
      · simp only [Load, h1, h2, Option.some.injEq] at h
        subst h
        rfl
      · by_cases h3 : c.ttl < now - e.timestamp
        · simp only [Load, h1, h2, if_pos h3, Option.some.injEq] at h
          subst h
          rfl
        · simp only [Load, h1, h2, if_neg h3, Option.some.injEq] at h
          subst h
          rfl

/-- C9 witness at a concrete input: the failing `Load` leaves the (empty)
entry heap unchanged. -/
theorem c9_witness :
    Load (NewInMemoryCache Nat Nat 2 0) 1 9 (some 7) 5 =
      some ((9, some 7), true, NewInMemoryCache Nat Nat 2 0) ∧
    ((9, some 7), true, NewInMemoryCache Nat Nat 2 0).2.2.elems =
      (NewInMemoryCache Nat Nat 2 0).elems :=
  ⟨by decide,
    (c9_no_refresh_on_read (NewInMemoryCache Nat Nat 2 0) 1 5).2.2.2 9 7
      ((9, some 7), true, NewInMemoryCache Nat Nat 2 0) (by decide)⟩

/-- C4: loader failure leaves no trace.  When `Load`'s loader is invoked
and fails, `Load` returns the loader's value and failure unchanged, the
map and the entry heap are untouched, and any `Get` of that key at or
after that instant still misses. -/
theorem c4_loader_failure_no_trace (c : CacheState K V) (k : K) (lv : V) (err : E)
    (r : (V × Option E) × Bool × CacheState K V) (now now2 : Int)
    (hload : Load c k lv (some err) now = some r) (hcalled : r.2.1 = true)
    (hmono : now ≤ now2) :
    r.1 = (lv, some err) ∧ r.2.2.elems = c.elems ∧ r.2.2.cache = c.cache ∧
      (Get r.2.2 k now2).1 = none := by
  rcases h1 : lookupMap c.cache k with _ | id
  · simp only [Load, h1, Option.some.injEq] at hload
    subst hload
    refine ⟨rfl, rfl, rfl, ?_⟩
    simp [Get, h1]
  · rcases h2 : getEntry c.elems id with _ | e
    · simp only [Load, h1, h2, Option.some.injEq] at hload
      subst hload
      refine ⟨rfl, rfl, rfl, ?_⟩
      simp [Get, h1, h2]
    · by_cases h3 : c.ttl < now - e.timestamp
      · simp only [Load, h1, h2, if_pos h3, Option.some.injEq] at hload
        subst hload
        refine ⟨rfl, rfl, rfl, ?_⟩
        have h3' : c.ttl < now2 - e.timestamp := by omega
        simp [Get, h1, h2, h3']
      · simp only [Load, h1, h2, if_neg h3, Option.some.injEq] at hload
        subst hload
        simp at hcalled

/-- C4 witness at a concrete input: a failing loader on a fresh cache. -/
theorem c4_witness :
    Load (NewInMemoryCache Nat Nat 2 0) 1 9 (some 7) 0 =
      some ((9, some 7), true, NewInMemoryCache Nat Nat 2 0) ∧
    ((9, some 7), true, NewInMemoryCache Nat Nat 2 0).2.1 = true ∧
    (0 : Int) ≤ 1 ∧
    ((9, some 7), true, NewInMemoryCache Nat Nat 2 0).1 = (9, some 7) ∧
    (Get ((9, some 7), true, NewInMemoryCache Nat Nat 2 0).2.2 1 1).1 = none :=
  ⟨by decide, by decide, by decide,
    (c4_loader_failure_no_trace (NewInMemoryCache Nat Nat 2 0) 1 9 7
      ((9, some 7), true, NewInMemoryCache Nat Nat 2 0) 0 1
      (by decide) (by decide) (by decide)).1,
    (c4_loader_failure_no_trace (NewInMemoryCache Nat Nat 2 0) 1 9 7
      ((9, some 7), true, NewInMemoryCache Nat Nat 2 0) 0 1
      (by decide) (by decide) (by decide)).2.2.2⟩

/-- C1: the code does not match the claim.  On a capacity-1, ttl-0 cache,
after `Put(1, 10)` at instant 0, a `Get(1)` at instant 1 (expired) removes
the element from the ordered collection but leaves key 1 in the map — the
entry is not removed from both structures.  The observable misses do hold:
this `Get` misses and a later `Get` misses again, because the stale record
keeps failing the TTL check, not because it was evicted. -/
theorem c1_expired_get_keeps_map_entry :
    runOps (NewInMemoryCache Nat Nat 1 0) ([.put 1 10 0] : List (Op Nat Nat Nat)) =
      some { cache := [(1, 0)], list := [0],
             elems := [(0, { key := 1, value := 10, timestamp := 0 })],
             nextId := 1, capacity := 1, ttl := 0 } ∧
    (Get { cache := [(1, 0)], list := [0],
           elems := [(0, { key := (1 : Nat), value := (10 : Nat), timestamp := 0 })],
           nextId := 1, capacity := 1, ttl := 0 } 1 1).1 = none ∧
    (Get { cache := [(1, 0)], list := [0],
           elems := [(0, { key := (1 : Nat), value := (10 : Nat), timestamp := 0 })],
           nextId := 1, capacity := 1, ttl := 0 } 1 1).2 = afterExpiredGet ∧
    lookupMap afterExpiredGet.cache 1 = some 0 ∧
    afterExpiredGet.list = [] ∧
    (Get afterExpiredGet 1 2).1 = none := by
  decide

/-- C2: invariant I1 fails.  After `Put(1, 10)` and the expired `Get(1)`,
the key set of the map is `[1]` while the ordered collection holds no
entry at all: an orphaned map entry. -/
theorem c2_orphaned_map_entry :
    runOps (NewInMemoryCache Nat Nat 1 0)
      ([.put 1 10 0, .get 1 1] : List (Op Nat Nat Nat)) = some afterExpiredGet ∧
    mapKeys afterExpiredGet = [1] ∧
    listKeys afterExpiredGet = [] := by
  decide

/-- C3: the capacity invariant fails for live entries.  On a capacity-1
cache, reviving the orphaned entry with `Put(1, 20)` and then inserting
`Put(2, 30)` yields two simultaneously live, retrievable entries. -/
theorem c3_capacity_exceeded :
    runOps (NewInMemoryCache Nat Nat 1 0)
      ([.put 1 10 0, .get 1 1, .put 1 20 1, .put 2 30 1] : List (Op Nat Nat Nat)) =
      some afterSecondInsert ∧
    afterSecondInsert.capacity = 1 ∧
    liveEntryCount afterSecondInsert 1 = 2 ∧
    (Get afterSecondInsert 1 1).1 = some 20 ∧
    (Get afterSecondInsert 2 1).1 = some 30 := by
  decide

/-- C8: `RemoveExpired` removes at most the tail entry per call: with two
expired entries it removes only the least-recently-used one (the removed
element's cleared links end the scan), leaving a still-expired entry
behind, and a second call at the same instant removes more — so the
operation neither removes every expired entry nor is idempotent. -/
theorem c8_remove_expired_only_tail :
    runOps (NewInMemoryCache Nat Nat 2 0)
      ([.put 1 10 0, .put 2 20 0] : List (Op Nat Nat Nat)) = some twoExpired ∧
    getEntry twoExpired.elems 0 = some { key := 1, value := 10, timestamp := 0 } ∧
    getEntry twoExpired.elems 1 = some { key := 2, value := 20, timestamp := 0 } ∧
    RemoveExpired twoExpired 1 = { twoExpired with cache := [(2, 1)], list := [1] } ∧
    lookupMap (RemoveExpired twoExpired 1).cache 2 = some 1 ∧
    RemoveExpired (RemoveExpired twoExpired 1) 1 ≠ RemoveExpired twoExpired 1 := by
  decide

/-- C10: on every reachable state of a cache constructed with positive
capacity, `Put` and `Load` never reach the eviction branch with an empty
list, so the dereference of the tail element cannot fail (`isSome`); with
capacity 0 the very first insertion dereferences a nil tail (`none`, a
panic in the Go source). -/
theorem c10_eviction_branch_safe :
    (∀ (K1 V1 E1 : Type) [DecidableEq K1] (capacity ttl : Int) (c : CacheState K1 V1),
      Reach K1 V1 E1 capacity ttl c → 0 < capacity →
        ∀ (k : K1) (v lv : V1) (le : Option E1) (now : Int),
          (Put c k v now).isSome ∧ (Load c k lv le now).isSome) ∧
    Put (NewInMemoryCache Nat Nat 0 0) 1 10 0 = none ∧
    Load (NewInMemoryCache Nat Nat 0 0) 1 10 (none : Option Nat) 0 = none := by
  refine ⟨?_, by decide, by decide⟩
  intro K1 V1 E1 _ capacity ttl c hreach hcap k v lv le now
  have hwf := wf_Reach capacity ttl c hreach
  obtain ⟨hc, _⟩ := reach_config capacity ttl c hreach
  rw [← hc] at hcap
  exact ⟨put_isSome c k v now hwf hcap, load_isSome c k lv le now hwf hcap⟩

/-- C10 witness: on a fresh capacity-1 cache (a reachable state) the first
`Put` and `Load` succeed. -/
theorem c10_witness :
    (0 : Int) < 1 ∧
    (Put (NewInMemoryCache Nat Nat 1 0) 0 0 0).isSome ∧
    (Load (NewInMemoryCache Nat Nat 1 0) 0 0 (none : Option Nat) 0).isSome :=
  ⟨by decide,
    (c10_eviction_branch_safe.1 Nat Nat Nat 1 0 (NewInMemoryCache Nat Nat 1 0)
      Reach.base (by decide) 0 0 0 none 0).1,
    (c10_eviction_branch_safe.1 Nat Nat Nat 1 0 (NewInMemoryCache Nat Nat 1 0)
      Reach.base (by decide) 0 0 0 none 0).2⟩

/-- C7 counterexample: in the reachable state `afterExpiredGet` the key is
present in the map, and `Put` overwrites the (expired) entry's value and
timestamp, but the entry is not moved to the front of the recency order —
it is not even in the ordered collection, and `MoveToFront` silently
no-ops on the detached element: the resulting list is empty. -/
theorem c7_counterexample :
    runOps (NewInMemoryCache Nat Nat 1 0)
      ([.put 1 10 0, .get 1 1] : List (Op Nat Nat Nat)) = some afterExpiredGet ∧
    lookupMap afterExpiredGet.cache 1 = some 0 ∧
    Put afterExpiredGet 1 20 1 =
      some { afterExpiredGet with
        elems := [(0, { key := 1, value := 20, timestamp := 1 })] } ∧
    (Put afterExpiredGet 1 20 1).map (fun c' => c'.list) = some [] := by
  decide

/-- C7 (amended): for a key present in the map, `Put` overwrites the value
and refreshes the timestamp unconditionally — there is no expiration check,
so an already-expired entry is revived — and it moves the entry to the
front of the ordered collection provided the entry's element is still
linked into it (which invariant I1 guarantees in the intended design; the
counterexample shows a reachable state where the element is detached and
the move is a silent no-op). -/
theorem c7_put_existing_overwrites (c : CacheState K V) (k : K) (id : Nat) (e : EntryRec K V)
    (v : V) (now : Int) (h1 : lookupMap c.cache k = some id)
    (h2 : getEntry c.elems id = some e) (hmem : id ∈ c.list) :
    Put c k v now = some { c with
      elems := setValueTimestamp c.elems id v now,
      list := id :: c.list.erase id } ∧
    getEntry (setValueTimestamp c.elems id v now) id =
      some { e with value := v, timestamp := now } := by
  constructor
  · simp [Put, h1, moveToFront, hmem]
  · rw [getEntry_setValueTimestamp]
    simp [h2]

/-- C7 witness: `Put(1, 20)` at instant 5 on `afterFirstPut` (whose entry,
written at 0 with ttl 0, is long expired) overwrites, refreshes and moves
to front. -/
theorem c7_witness :
    lookupMap afterFirstPut.cache 1 = some 0 ∧
    getEntry afterFirstPut.elems 0 = some { key := 1, value := 10, timestamp := 0 } ∧
    0 ∈ afterFirstPut.list ∧
    Put afterFirstPut 1 20 5 = some { afterFirstPut with
      elems := setValueTimestamp afterFirstPut.elems 0 20 5,
      list := 0 :: afterFirstPut.list.erase 0 } :=
  ⟨by decide, by decide, by decide,
    (c7_put_existing_overwrites afterFirstPut 1 0 { key := 1, value := 10, timestamp := 0 }
      20 5 (by decide) (by decide) (by decide)).1⟩

/-- C5 counterexample: in the reachable state `orphanLive` key 1 is present
and live at instant 1, and `Load` returns the cached value with no error
and without invoking the loader — but it does not move the entry to the
front: the entry is detached from the ordered collection and the state is
returned unchanged, with an empty list. -/
theorem c5_counterexample :
    runOps (NewInMemoryCache Nat Nat 1 0)
      ([.put 1 10 0, .get 1 1, .put 1 20 1] : List (Op Nat Nat Nat)) = some orphanLive ∧
    lookupMap orphanLive.cache 1 = some 0 ∧
    getEntry orphanLive.elems 0 = some { key := 1, value := 20, timestamp := 1 } ∧
    ¬orphanLive.ttl < 1 - (1 : Int) ∧
    Load orphanLive 1 99 (none : Option Nat) 1 = some ((20, none), false, orphanLive) ∧
    orphanLive.list = [] := by
  decide

/-- C5 (amended): a `Load` of a present, live key returns the cached value
with no error and does not invoke the loader, and moves the entry to the
front provided its element is still linked into the ordered collection
(guaranteed by invariant I1 in the intended design; the counterexample
shows a reachable detached state where the move is a no-op).  Moreover,
after a first `Load` whose loader ran successfully and inserted the value
at instant `now`, a second `Load` of the same key at any instant within
`ttl` of `now` does not invoke its loader and returns the first value. -/
theorem c5_live_hit_and_suppression :
    (∀ (c : CacheState K V) (k : K) (id : Nat) (e : EntryRec K V) (lv : V) (le : Option E)
      (now : Int), lookupMap c.cache k = some id → getEntry c.elems id = some e →
      ¬c.ttl < now - e.timestamp → id ∈ c.list →
      Load c k lv le now =
        some ((e.value, none), false, { c with list := id :: c.list.erase id })) ∧
    (∀ (c c2 : CacheState K V) (k : K) (lv lv2 : V) (le2 : Option E) (now now2 : Int),
      Load c k lv (none : Option E) now = some ((lv, none), true, c2) →
      now2 - now ≤ c.ttl →
      ∃ c3, Load c2 k lv2 le2 now2 = some ((lv, none), false, c3)) := by
  constructor
  · intro c k id e lv le now h1 h2 h3 hmem
    simp only [Load, h1, h2, if_neg h3, moveToFront, if_pos hmem]
  · intro c c2 k lv lv2 le2 now now2 hload hwin
    have hmain : ∀ cb : CacheState K V, cb.ttl = c.ttl →
        (evictIfFull cb).map
          (fun cc => ((lv, (none : Option E)), true, pushNew cc k lv now)) =
            some ((lv, none), true, c2) →
        ∃ c3, Load c2 k lv2 le2 now2 = some ((lv, none), false, c3) := by
      intro cb httlcb hmap
      rcases h2 : evictIfFull cb with _ | c1
      · rw [h2] at hmap
        exact absurd hmap (by simp)
      · rw [h2] at hmap
        simp only [Option.map_some', Option.some.injEq] at hmap
        have hc2 : pushNew c1 k lv now = c2 := congrArg (fun r => r.2.2) hmap
        subst hc2
        obtain ⟨_, _, _, httl1⟩ := evictIfFull_fields cb c1 h2
        have hlk : lookupMap (pushNew c1 k lv now).cache k = some c1.nextId := by
          simp [pushNew, lookupMap_setKey]
        have hge : getEntry (pushNew c1 k lv now).elems c1.nextId =
            some { key := k, value := lv, timestamp := now } := by
          simp [pushNew, getEntry_cons]
        have hlive : ¬(pushNew c1 k lv now).ttl < now2 - now := by
          have : (pushNew c1 k lv now).ttl = c.ttl := httl1.trans httlcb
          omega
        refine ⟨{ pushNew c1 k lv now with
          list := moveToFront (pushNew c1 k lv now).list c1.nextId }, ?_⟩
        simp only [Load, hlk, hge, if_neg hlive]
    rcases h1 : lookupMap c.cache k with _ | id
    · simp only [Load, h1] at hload
      exact hmain c rfl hload
    · rcases h2 : getEntry c.elems id with _ | e
      · simp only [Load, h1, h2] at hload
        exact hmain c rfl hload
      · by_cases h3 : c.ttl < now - e.timestamp
        · simp only [Load, h1, h2, if_pos h3] at hload
          exact hmain { c with list := listRemove c.list id } rfl hload
        · simp only [Load, h1, h2, if_neg h3, Option.some.injEq] at hload
          exact absurd (congrArg (fun r => r.2.1) hload) (by simp)

/-- C5 witness: a live hit on `afterFirstPut` at instant 0, and loader
suppression across two `Load`s of key 1 on a fresh capacity-2, ttl-5
cache. -/
theorem c5_witness :
    Load afterFirstPut 1 99 (none : Option Nat) 0 =
      some ((10, none), false, { afterFirstPut with
        list := 0 :: afterFirstPut.list.erase 0 }) ∧
    (Load (NewInMemoryCache Nat Nat 2 5) 1 7 (none : Option Nat) 0 =
      some ((7, none), true,
        { cache := [(1, 0)], list := [0],
          elems := [(0, { key := 1, value := 7, timestamp := 0 })],
          nextId := 1, capacity := 2, ttl := 5 })) ∧
    (∃ c3, Load { cache := [(1, 0)], list := [0],
                  elems := [(0, { key := (1 : Nat), value := (7 : Nat), timestamp := 0 })],
                  nextId := 1, capacity := 2, ttl := 5 } 1 8 (some 9) 3 =
      some ((7, none), false, c3)) :=
  ⟨(c5_live_hit_and_suppression.1 afterFirstPut 1 0
      { key := 1, value := 10, timestamp := 0 } 99 none 0
      (by decide) (by decide) (by decide) (by decide)),
   by decide,
   c5_live_hit_and_suppression.2 (NewInMemoryCache Nat Nat 2 5)
      { cache := [(1, 0)], list := [0],
        elems := [(0, { key := 1, value := 7, timestamp := 0 })],
        nextId := 1, capacity := 2, ttl := 5 } 1 7 8 (some 9) 0 3
      (by decide) (by decide)⟩

/-- C6 counterexample: `orphanFull` is reached on a capacity-2, ttl-2
cache by `Put(1,10)@0, Get(1)@3 (expired), Put(1,20)@3, Put(2,30)@4,
Put(3,40)@5`; every touch of keys 1 and 2 was a `Put`, so their
timestamps are their last-touch instants.  Key 1 is current (live and
retrievable at instant 5) and was touched at 3, earlier than key 2
(touched at 4) — yet inserting key 4 into the full cache evicts key 2 and
leaves key 1 cached, refuting "the entry evicted is exactly the one among
all current entries that was not touched most recently". -/
theorem c6_counterexample :
    runOps (NewInMemoryCache Nat Nat 2 2)
      ([.put 1 10 0, .get 1 3, .put 1 20 3, .put 2 30 4, .put 3 40 5] :
        List (Op Nat Nat Nat)) = some orphanFull ∧
    (Get orphanFull 1 5).1 = some 20 ∧
    getEntry orphanFull.elems 0 = some { key := 1, value := 20, timestamp := 3 } ∧
    getEntry orphanFull.elems 1 = some { key := 2, value := 30, timestamp := 4 } ∧
    (Put orphanFull 4 50 5).map (fun c' => lookupMap c'.cache 2) = some none ∧
    (Put orphanFull 4 50 5).map (fun c' => lookupMap c'.cache 1) = some (some 0) ∧
    (Put orphanFull 4 50 5).map (fun c' => (Get c' 1 5).1) = some (some 20) := by
  decide

/-- C6 (amended): along any run with nondecreasing operation instants
(ghost-tracked by `ReachT`), when `Put` or a successful `Load` inserts an
absent key into a full cache, the entry evicted is the tail `b` of the
ordered collection, whose last touch is no later than that of every entry
of the ordered collection; the new list is `c.nextId :: listRemove c.list b`,
so `b` is gone from it.  (The counterexample shows the original "among all
current entries" fails: an orphaned map entry detached from the collection
can be current — live and retrievable — yet is never a candidate for
eviction.) -/
theorem c6_evicts_least_recently_touched (capacity ttl : Int) (c : CacheState K V)
    (t : List (Nat × Int)) (T : Int) (hreach : ReachT K V E capacity ttl c t T)
    (k : K) (v lv : V) (now : Int) (habs : lookupMap c.cache k = none)
    (hfull : c.capacity ≤ (c.list.length : Int)) (hcap : 0 < c.capacity) :
    ∃ b be c1, c.list.getLast? = some b ∧ getEntry c.elems b = some be ∧
      (∀ a ∈ c.list, touchVal t b ≤ touchVal t a) ∧
      c1.cache = eraseKey c.cache be.key ∧ c1.list = listRemove c.list b ∧
      c1.nextId = c.nextId ∧
      b ∉ (pushNew c1 k v now).list ∧
      Put c k v now = some (pushNew c1 k v now) ∧
      Load c k lv (none : Option E) now = some ((lv, none), true, pushNew c1 k lv now) := by
  obtain ⟨hwf, hs, hbdd⟩ := reachT_inv capacity ttl c t T hreach
  have hlen : 0 < c.list.length := by omega
  have hne : c.list ≠ [] := List.ne_nil_of_length_pos hlen
  obtain ⟨b, hbl⟩ := Option.isSome_iff_exists.mp (List.getLast?_isSome.mpr hne)
  have hmem : b ∈ c.list := List.mem_of_mem_getLast? hbl
  obtain ⟨be, hbe⟩ := Option.isSome_iff_exists.mp (hwf.inHeap b hmem)
  have hmin := recencySorted_getLast_min t c.list b hs hbl
  have hev : evictIfFull c =
      some { c with cache := eraseKey c.cache be.key, list := listRemove c.list b } := by
    simp only [evictIfFull, if_pos hfull, hbl, hbe]
  have hnm : b ∉
      (pushNew { c with cache := eraseKey c.cache be.key, list := listRemove c.list b }
        k v now).list := by
    simp only [pushNew]
    intro hmemc
    rcases List.mem_cons.mp hmemc with heq | hin
    · have := hwf.idsLt b hmem
      omega
    · exact hwf.nodup.not_mem_erase hin
  refine ⟨b, be, { c with cache := eraseKey c.cache be.key, list := listRemove c.list b },
    hbl, hbe, hmin, rfl, rfl, rfl, hnm, ?_, ?_⟩
  · simp only [Put, habs, hev, Option.map_some']
  · simp only [Load, habs, hev, Option.map_some']

/-- C6 witness: on `afterFirstPut` (reached by one timed step from a fresh
capacity-1, ttl-0 cache, with ghost touch record `[(0, 0)]`), inserting
the absent key 2 at instant 1 evicts the tail. -/
theorem c6_witness :
    lookupMap afterFirstPut.cache 2 = none ∧
    afterFirstPut.capacity ≤ (afterFirstPut.list.length : Int) ∧
    (0 : Int) < afterFirstPut.capacity ∧
    (∃ b be c1, afterFirstPut.list.getLast? = some b ∧
      getEntry afterFirstPut.elems b = some be ∧
      (∀ a ∈ afterFirstPut.list, touchVal [(0, 0)] b ≤ touchVal [(0, 0)] a) ∧
      c1.cache = eraseKey afterFirstPut.cache be.key ∧
      c1.list = listRemove afterFirstPut.list b ∧
      c1.nextId = afterFirstPut.nextId ∧
      b ∉ (pushNew c1 2 30 1).list ∧
      Put afterFirstPut 2 30 1 = some (pushNew c1 2 30 1) ∧
      Load afterFirstPut 2 7 (none : Option Nat) 1 =
        some ((7, none), true, pushNew c1 2 7 1)) := by
  have hstep : ReachT Nat Nat Nat 1 0 afterFirstPut [(0, 0)] 0 :=
    ReachT.step (Op.put 1 10 0) (ReachT.base 0) (by decide) (by decide)
  exact ⟨by decide, by decide, by decide,
    c6_evicts_least_recently_touched 1 0 afterFirstPut [(0, 0)] 0 hstep
      2 30 7 1 (by decide) (by decide) (by decide)⟩

end Ugulru
